import Mathlib

/-!
# Verification of the YouTube downloader backend (`src/app.py`)

Shallow embedding of the Flask backend in `src/app.py` (job store, rate
limiter, progress hook / aggregator, download worker, format resolver) and of
the legacy resolver in `src/backend/app.py`.  Machine numbers are modelled as
`Nat`/`Int`; Python `None` as `Option.none`; the truthiness of an optional
number (`None`/`0` both falsy) via `Option.getD · 0 ≠ 0`.  Python dicts with a
fixed key set become structures, optional keys become `Option` fields or
defaulted fields.
-/

namespace Ytdl

/-! ## Rate limiter (`check_rate_limit`, src/app.py lines 41-54)

`REQUEST_LOG[ip]` is a list of `time.time()` timestamps; we model a single
key's list (the map is per-key independent) and timestamps as integers. -/

def RATE_LIMIT : Nat := 10

/-- One call of `check_rate_limit` for one client key: prune entries at least
60 seconds old, deny when the pruned count reaches `RATE_LIMIT`, otherwise
record `now` and admit.  Returns (admitted?, new timestamp list). -/
def check_rate_limit (now : Int) (log : List Int) : Bool × List Int :=
  let pruned := log.filter (fun t => now - t < 60)
  if RATE_LIMIT ≤ pruned.length then
    (false, pruned)
  else
    (true, pruned ++ [now])

/-- A sequence of calls to the limiter starting from an empty log; returns the
list of admission decisions and the final log. -/
def runLimiter (times : List Int) : List Bool × List Int :=
  times.foldl
    (fun acc t =>
      let r := check_rate_limit t acc.2
      (acc.1 ++ [r.1], r.2))
    ([], [])

/-! ## Job records (`DOWNLOAD_JOBS` entries) -/

/-- The `phase` strings written by the code. -/
inductive Phase where
  | queued
  | starting
  | downloading
  | processing
  | ready
  | error
deriving DecidableEq

/-- One entry of `DOWNLOAD_JOBS`.  The keys written by `start_download` are
plain fields; keys that are only added later (`is_audio`, `stream`, the
private `_video_done` / `_video_size` / `_current_stream` bookkeeping of the
progress hook) carry defaults mirroring `dict.get`'s fallback. -/
structure Job where
  id : String
  phase : Phase
  progress : Nat
  downloaded_bytes : Nat
  total_bytes : Nat
  speed : Nat
  eta : Nat
  message : String
  error : Option String
  filepath : Option String
  filename : Option String
  filesize : Nat
  created_at : Int
  is_audio : Option Bool := none
  stream : Option String := none
  videoDone : Bool := false
  videoSize : Nat := 0
  currentStream : Option String := none
deriving DecidableEq

/-- The record created by `start_download` (src/app.py lines 336-350). -/
def mkJob (jobId : String) (t : Int) : Job :=
  { id := jobId
    phase := .queued
    progress := 0
    downloaded_bytes := 0
    total_bytes := 0
    speed := 0
    eta := 0
    message := "Starting download..."
    error := none
    filepath := none
    filename := none
    filesize := 0
    created_at := t }

/-! ## Progress hook (`create_progress_hook`, src/app.py lines 82-132) -/

/-- The dictionary yt-dlp passes to a progress hook; only the keys the hook
reads are modelled.  `d.get(k)` with an absent or `None` value is `none`. -/
structure ProgressEvent where
  status : String
  downloaded_bytes : Nat := 0
  total_bytes : Option Nat := none
  total_bytes_estimate : Option Nat := none
  speed : Option Nat := none
  eta : Option Nat := none
  filename : String := ""
  errorMsg : Option String := none
deriving DecidableEq

/-- `total = d.get('total_bytes') or d.get('total_bytes_estimate', 0)`. -/
def effTotal (d : ProgressEvent) : Nat :=
  if d.total_bytes.getD 0 ≠ 0 then d.total_bytes.getD 0
  else d.total_bytes_estimate.getD 0

/-- The body of the hook returned by `create_progress_hook`, acting on the
job record it found in the store.  (The store-existence check is in
`hookStore` below.  The local `is_audio_stream` of the source is computed but
never used, so it is not modelled.) -/
def progressHook (j : Job) (d : ProgressEvent) : Job :=
  if d.status = "downloading" then
    let downloaded := d.downloaded_bytes
    let total := effTotal d
    let speed := d.speed.getD 0
    let eta := d.eta.getD 0
    -- `_video_done` latch: `if d['status'] == 'finished' or downloaded >= total > 0`
    -- (the first disjunct is dead inside this branch but kept as in the source)
    let j1 :=
      if ¬ j.videoDone then
        let j' := { j with currentStream := some "video" }
        if d.status = "finished" ∨ (downloaded ≥ total ∧ total > 0) then
          { j' with videoDone := true, videoSize := total }
        else j'
      else { j with currentStream := some "audio" }
    let j2 := { j1 with
      phase := .downloading
      downloaded_bytes := downloaded
      total_bytes := total
      speed := speed
      eta := eta
      stream := some (j1.currentStream.getD "video") }
    let j3 :=
      if total > 0 then
        { j2 with progress := min (downloaded * 100 / total) 99 }
      else j2
    let streamLabel := if j3.videoDone then "audio" else "video"
    { j3 with message := "Downloading " ++ streamLabel ++ "..." }
  else if d.status = "finished" then
    { j with phase := .processing, progress := 95, message := "Merging video and audio..." }
  else if d.status = "error" then
    { j with phase := .error, error := some (d.errorMsg.getD "Download failed") }
  else j

/-! ## Job store (`DOWNLOAD_JOBS`) -/

/-- The in-memory job map, as an association list; `List.lookup` takes the
first binding, so prepending a binding models dict assignment. -/
abbrev Store := List (String × Job)

/-- `DOWNLOAD_JOBS[job_id] = {...}` for a fresh id. -/
def storeInsert (s : Store) (jobId : String) (j : Job) : Store :=
  (jobId, j) :: s

/-- Mutation of the record bound to `jobId` (a no-op on other bindings). -/
def storeUpdate (s : Store) (jobId : String) (f : Job → Job) : Store :=
  s.map (fun p => if p.1 = jobId then (p.1, f p.2) else p)

/-- The full hook: `if job_id not in DOWNLOAD_JOBS: return`, else update the
record (src/app.py lines 84-88 and onward). -/
def hookStore (s : Store) (jobId : String) (d : ProgressEvent) : Store :=
  if (s.lookup jobId).isSome then
    storeUpdate s jobId (fun j => progressHook j d)
  else s

/-- All hook invocations fired during one `extract_info` call. -/
def runHooks (s : Store) (jobId : String) (evts : List ProgressEvent) : Store :=
  evts.foldl (fun s' d => hookStore s' jobId d) s

/-- The job creation performed by `start_download` before spawning the
worker thread. -/
def startStore (s : Store) (jobId : String) (t : Int) : Store :=
  storeInsert s jobId (mkJob jobId t)

/-! ## Filename sanitization (download worker, src/app.py lines 179-184)

`re.sub(r'[^\w\s-]', '', title)[:100].strip()`, falling back to `'video'`. -/

/-- Python's regex word class `\w` (ASCII part): alphanumerics and underscore. -/
def pyIsWord (c : Char) : Bool := c.isAlphanum || c == '_'

/-- A character kept by `re.sub(r'[^\w\s-]', '', ·)`. -/
def keptChar (c : Char) : Bool := pyIsWord c || c.isWhitespace || c == '-'

/-- Python `str.strip()`: drop leading and trailing whitespace. -/
def stripStr (s : String) : String :=
  ⟨((s.toList.dropWhile Char.isWhitespace).reverse.dropWhile Char.isWhitespace).reverse⟩

/-- `re.sub(r'[^\w\s-]', '', title)[:100].strip()`. -/
def sanitizeTitle (title : String) : String :=
  stripStr ⟨(title.toList.filter keptChar).take 100⟩

/-- `safe_title`, with the `'video'` fallback when the stripped result is
empty. -/
def mkSafeTitle (title : String) : String :=
  if sanitizeTitle title = "" then "video" else sanitizeTitle title

/-- What claim C9 says verbatim: strip characters outside alphanumerics,
whitespace and hyphen, truncate to 100 characters, fall back to a generic
name when empty.  (No underscore, no final `strip()`.) -/
def claimSanitize (title : String) : String :=
  if (⟨(title.toList.filter
      (fun c => c.isAlphanum || c.isWhitespace || c == '-')).take 100⟩ : String) = ""
  then "video"
  else ⟨(title.toList.filter
      (fun c => c.isAlphanum || c.isWhitespace || c == '-')).take 100⟩

/-- The character class of the amended claim: word characters (alphanumerics
and underscore), whitespace, hyphen. -/
def amendedKeep (c : Char) : Bool :=
  c.isAlphanum || c == '_' || c.isWhitespace || c == '-'

/-- The amended sanitizer: keep `amendedKeep` characters, truncate to 100
characters, strip surrounding whitespace, fall back to `'video'` when
empty. -/
def amendedSanitize (title : String) : String :=
  if stripStr ⟨(title.toList.filter amendedKeep).take 100⟩ = "" then "video"
  else stripStr ⟨(title.toList.filter amendedKeep).take 100⟩

/-! ## Download worker (`download_worker`, src/app.py lines 135-200) -/

/-- `s.rsplit('.', 1)[0]`: everything before the last dot (the whole string
when there is no dot). -/
def rsplitStem (s : String) : String :=
  let cs := s.toList
  if cs.contains '.' then
    ⟨((cs.reverse.dropWhile (· ≠ '.')).drop 1).reverse⟩
  else s

/-- Python `pat in s` for strings, via `str.split`. -/
def containsSub (s pat : String) : Bool := (s.splitOn pat).length ≠ 1

/-- Extractor metadata, as read by the code (`info.get(...)`). -/
structure RawFormat where
  format_id : String
  ext : String := "mp4"
  height : Option Nat := none
  width : Option Nat := none
  filesize : Option Nat := none
  filesize_approx : Option Nat := none
  vcodec : String := "none"
  acodec : String := "none"
  abr : Option Nat := none
  vbr : Option Nat := none
  tbr : Option Nat := none
deriving DecidableEq

structure ExtractorInfo where
  formats : List RawFormat := []
  title : Option String := none
  duration : Option Nat := none
  uploader : Option String := none
  thumbnail : Option String := none
deriving DecidableEq

/-- The environment of one worker run: the outcome of the blocking
`yt_dlp` call (which either raises or returns `info`), the hook events it
delivers before returning, `ydl.prepare_filename(info)`, the set of paths for
which `os.path.exists` answers true, and `os.path.getsize`'s answer. -/
structure WorkerEnv where
  extractResult : Except String ExtractorInfo
  hookEvents : List ProgressEvent := []
  preparedFilename : String := ""
  existingFiles : List String := []
  fileSize : Nat := 0

/-- `job['phase'] = 'starting'; job['message'] = 'Connecting to YouTube...'`. -/
def startingUpd (j : Job) : Job :=
  { j with phase := .starting, message := "Connecting to YouTube..." }

/-- `job['is_audio'] = is_audio`. -/
def markAudioUpd (b : Bool) (j : Job) : Job :=
  { j with is_audio := some b }

/-- `job['phase'] = 'downloading'; job['message'] = 'Downloading from YouTube...'`. -/
def dlUpd (j : Job) : Job :=
  { j with phase := .downloading, message := "Downloading from YouTube..." }

/-- The `except` branch of the worker: record the stringified cause. -/
def errorUpd (e : String) (j : Job) : Job :=
  { j with phase := .error, error := some e, message := "Error: " ++ e }

/-- The successful terminal transition of the worker. -/
def readyUpd (fp dn : String) (sz : Nat) (ia : Bool) (j : Job) : Job :=
  { j with
    phase := .ready
    progress := 100
    filepath := some fp
    filename := some dn
    filesize := sz
    message := "Ready to download!"
    is_audio := some ia }

/-- `is_audio = 'bestaudio' in format_id and 'bestvideo' not in format_id`. -/
def audioFlag (format_id : String) : Bool :=
  containsSub format_id "bestaudio" && !containsSub format_id "bestvideo"

/-- The filename resolution after a successful `extract_info`:
`prepare_filename` with the `.mp3` rewrite for audio, or the `.mp4` rewrite
when the merged container replaced the original extension. -/
def resolvedFilename (format_id : String) (env : WorkerEnv) : String :=
  if audioFlag format_id then rsplitStem env.preparedFilename ++ ".mp3"
  else if env.existingFiles.contains env.preparedFilename then env.preparedFilename
  else rsplitStem env.preparedFilename ++ ".mp4"

/-- `f"{safe_title}.{ext}"`. -/
def downloadName (format_id : String) (title : Option String) : String :=
  mkSafeTitle (title.getD "video") ++ "." ++ (if audioFlag format_id then "mp3" else "mp4")

/-- The store after the worker's initial transitions (`starting`,
`is_audio`, `downloading`) and all hook events fired inside
`extract_info`. -/
def workerPre (s : Store) (jobId format_id : String) (env : WorkerEnv) : Store :=
  runHooks
    (storeUpdate
      (storeUpdate (storeUpdate s jobId startingUpd) jobId (markAudioUpd (audioFlag format_id)))
      jobId dlUpd)
    jobId env.hookEvents

/-- The whole `try` block of the worker.  Every failure path inside the
`try` — the extractor raising, or the explicit
`raise Exception('Download failed - file not found')` — is caught by the
`except` clause, which writes the error phase; so the block always produces
a store. -/
def workerBody (s : Store) (jobId format_id : String) (env : WorkerEnv) : Store :=
  match env.extractResult with
  | .error e => storeUpdate (workerPre s jobId format_id env) jobId (errorUpd e)
  | .ok info =>
    if env.existingFiles.contains (resolvedFilename format_id env) then
      storeUpdate (workerPre s jobId format_id env) jobId
        (readyUpd (resolvedFilename format_id env) (downloadName format_id info.title)
          env.fileSize (audioFlag format_id))
    else
      storeUpdate (workerPre s jobId format_id env) jobId
        (errorUpd "Download failed - file not found")

/-- `download_worker(job_id, url, format_id)`.  The initial
`job = DOWNLOAD_JOBS[job_id]` lookup sits *outside* the `try` block: a
missing id raises (`Except.error`).  Everything after it is inside the
`try`, so those paths return `Except.ok`.  The `url` argument only feeds the
extractor, which is part of `env`. -/
def download_worker (s : Store) (jobId : String) (format_id : String)
    (env : WorkerEnv) : Except String Store :=
  match s.lookup jobId with
  | none => Except.error "KeyError"
  | some _ => Except.ok (workerBody s jobId format_id env)

/-! ## Format resolver (`get_video_info`, src/app.py lines 226-316)

The `seen_qualities` set holds the strings `f"video_{height}"`,
`f"audio_{int(abr)}"` (and, in the legacy backend, `f"combined_{res}"`);
since the numeric rendering of a `Nat` is injective and the three prefixes
differ, the set is modelled by a list of tagged keys. -/

inductive QKey where
  | videoQ (h : Nat)
  | audioQ (b : Nat)
  | combinedQ (r : Nat)
deriving DecidableEq

inductive FKind where
  | video
  | audio
deriving DecidableEq

/-- One entry of the `formats` list built by `get_video_info`.  Keys that are
absent in some entries (`height` for audio entries, `bitrate` for video
entries, `width` and `has_audio` which only raw video entries / synthetic
video entries carry) are `Option`s or defaulted, matching `dict.get`. -/
structure FormatEntry where
  format_id : String
  type : FKind
  quality : String
  height : Option Nat := none
  width : Option Nat := none
  bitrate : Option Nat := none
  ext : String
  filesize : Option Nat := none
  has_audio : Bool := false
deriving DecidableEq

/-- Truthiness of an optional numeric field. -/
def optTruthy (o : Option Nat) : Bool := o.getD 0 ≠ 0

/-- `int(height)` for a truthy height (0 for a falsy one). -/
def hVal (f : RawFormat) : Nat := f.height.getD 0

/-- `int(abr)` for a truthy abr (0 for a falsy one). -/
def bVal (f : RawFormat) : Nat := f.abr.getD 0

/-- `vcodec != 'none' and height`: the condition feeding
`available_video_heights`. -/
def isVidStream (f : RawFormat) : Bool :=
  f.vcodec ≠ "none" && optTruthy f.height

/-- `vcodec != 'none' and acodec != 'none' and height`: a video-with-audio
stream. -/
def isVA (f : RawFormat) : Bool :=
  f.vcodec ≠ "none" && f.acodec ≠ "none" && optTruthy f.height

/-- `acodec != 'none' and vcodec == 'none' and abr`: an audio-only stream. -/
def isAudioOnly (f : RawFormat) : Bool :=
  f.acodec ≠ "none" && f.vcodec == "none" && optTruthy f.abr

/-- A video-only stream in the sense of the spec: video codec, no audio
codec, height present. -/
def isVideoOnly (f : RawFormat) : Bool :=
  f.vcodec ≠ "none" && f.acodec == "none" && optTruthy f.height

/-- `filesize = f.get('filesize') or f.get('filesize_approx')`. -/
def rawFilesize (f : RawFormat) : Nat :=
  if f.filesize.getD 0 ≠ 0 then f.filesize.getD 0 else f.filesize_approx.getD 0

/-- `vbr = f.get('vbr') or f.get('tbr')`. -/
def effVbr (f : RawFormat) : Nat :=
  if f.vbr.getD 0 ≠ 0 then f.vbr.getD 0 else f.tbr.getD 0

/-- `estimated_size` for a video entry, `None` when falsy.
(`int((vbr * 1000 / 8) * duration)`; `vbr * 1000 / 8` is exact.) -/
def sizeOptV (dur : Nat) (f : RawFormat) : Option Nat :=
  let e :=
    if rawFilesize f ≠ 0 then rawFilesize f
    else if effVbr f ≠ 0 && dur ≠ 0 then effVbr f * 1000 / 8 * dur
    else 0
  if e ≠ 0 then some e else none

/-- `estimated_size` for an audio entry. -/
def sizeOptA (dur : Nat) (f : RawFormat) : Option Nat :=
  let e :=
    if rawFilesize f ≠ 0 then rawFilesize f
    else if bVal f ≠ 0 && dur ≠ 0 then bVal f * 1000 / 8 * dur
    else 0
  if e ≠ 0 then some e else none

/-- The descriptor emitted for a video-with-audio stream. -/
def vaEntry (dur : Nat) (f : RawFormat) : FormatEntry :=
  { format_id := f.format_id
    type := .video
    quality := Nat.repr (hVal f) ++ "p"
    height := some (hVal f)
    width := some (if optTruthy f.width then f.width.getD 0 else 0)
    ext := f.ext
    filesize := sizeOptV dur f
    has_audio := true }

/-- The descriptor emitted for an audio-only stream. -/
def audEntry (dur : Nat) (f : RawFormat) : FormatEntry :=
  { format_id := f.format_id
    type := .audio
    quality := Nat.repr (bVal f) ++ " kbps"
    bitrate := some (bVal f)
    ext := f.ext
    filesize := sizeOptA dur f }

/-- State of the per-stream loop: emitted `formats`, `seen_qualities`,
`available_video_heights`. -/
structure PassState where
  fmts : List FormatEntry
  seen : List QKey
  avail : List Nat

/-- `set.add`. -/
def insertNat (n : Nat) (l : List Nat) : List Nat :=
  if n ∈ l then l else l ++ [n]

/-- The body of `for f in info.get('formats', [])`. -/
def step (dur : Nat) (s : PassState) (f : RawFormat) : PassState :=
  let avail' := if isVidStream f then insertNat (hVal f) s.avail else s.avail
  if isVA f then
    if QKey.videoQ (hVal f) ∈ s.seen then { s with avail := avail' }
    else
      { fmts := s.fmts ++ [vaEntry dur f]
        seen := s.seen ++ [QKey.videoQ (hVal f)]
        avail := avail' }
  else if isAudioOnly f then
    if QKey.audioQ (bVal f) ∈ s.seen then { s with avail := avail' }
    else
      { fmts := s.fmts ++ [audEntry dur f]
        seen := s.seen ++ [QKey.audioQ (bVal f)]
        avail := avail' }
  else { s with avail := avail' }

/-- The whole per-stream loop. -/
def pass1 (dur : Nat) : List RawFormat → PassState → PassState
  | [], s => s
  | f :: l, s => pass1 dur l (step dur s f)

/-- The canonical resolution tiers. -/
def tiers : List Nat := [2160, 1440, 1080, 720, 480, 360]

/-- The selector string of a synthetic per-resolution composite. -/
def tierSelector (res : Nat) : String :=
  "bestvideo[height<=" ++ Nat.repr res ++ "][ext=mp4]+bestaudio[ext=m4a]/best[height<=" ++
    Nat.repr res ++ "]"

/-- The synthetic per-resolution composite descriptor (no `width` key). -/
def tierEntry (res : Nat) : FormatEntry :=
  { format_id := tierSelector res
    type := .video
    quality := Nat.repr res ++ "p"
    height := some res
    ext := "mp4"
    filesize := none
    has_audio := true }

/-- The synthetic "Best Audio (MP3)" descriptor. -/
def bestAudioEntry : FormatEntry :=
  { format_id := "bestaudio/best"
    type := .audio
    quality := "Best Audio (MP3)"
    bitrate := some 9999
    ext := "mp3"
    filesize := none }

/-- Heights of the emitted video descriptors
(`set(f.get('height', 0) for f in formats if f['type'] == 'video')`). -/
def vHeights (fmts : List FormatEntry) : List Nat :=
  (fmts.filter (fun g => g.type == FKind.video)).map (fun g => g.height.getD 0)

/-- Bitrates of the emitted audio descriptors. -/
def aKeys (fmts : List FormatEntry) : List Nat :=
  (fmts.filter (fun g => g.type == FKind.audio)).map (fun g => g.bitrate.getD 0)

/-- Stable descending insertion by key (Python `sorted(..., reverse=True)` is
stable: an element is placed before the first element with a key `≤` its
own, so equal keys keep their original relative order). -/
def insertDesc {α : Type} (key : α → Nat) (x : α) : List α → List α
  | [] => [x]
  | y :: ys => if key y ≤ key x then x :: y :: ys else y :: insertDesc key x ys

/-- Stable descending sort by key. -/
def sortDesc {α : Type} (key : α → Nat) : List α → List α
  | [] => []
  | x :: l => insertDesc key x (sortDesc key l)

/-- The format list returned by `get_video_info` in src/app.py: the
per-stream loop, the synthetic per-resolution composites, the two sorts, the
synthetic Best Audio descriptor, and the video++audio concatenation. -/
def resolveFormats (info : ExtractorInfo) : List FormatEntry :=
  let dur := info.duration.getD 0
  let s := pass1 dur info.formats ⟨[], [], []⟩
  let existing_heights := vHeights s.fmts
  let fmts2 := s.fmts ++
    (tiers.filter (fun r => r ∉ existing_heights && r ∈ s.avail)).map tierEntry
  let video_formats := sortDesc (fun g => g.height.getD 0)
    (fmts2.filter (fun g => g.type == FKind.video))
  let audio_formats := sortDesc (fun g => g.bitrate.getD 0)
    (fmts2.filter (fun g => g.type == FKind.audio))
  video_formats ++ bestAudioEntry :: audio_formats

/-! ## Legacy backend resolver (`get_video_info`, src/backend/app.py)

Differences from the primary resolver: *every* stream with a video codec and
a height is emitted (with `has_audio = acodec != 'none'`); a synthetic "Best
Quality" descriptor with height 9999 is inserted at the head of the raw list
before sorting; the per-resolution composites are appended unconditionally
(their `combined_{res}` keys are never in `seen_qualities`); file sizes are
rendered for display by `format_filesize` (float string formatting, not
modelled — the field is display-only and never inspected again). -/

structure BFormatEntry where
  format_id : String
  type : FKind
  quality : String
  height : Option Nat := none
  width : Option Nat := none
  bitrate : Option Nat := none
  ext : String
  has_audio : Bool := false
deriving DecidableEq

def bVaEntry (f : RawFormat) : BFormatEntry :=
  { format_id := f.format_id
    type := .video
    quality := Nat.repr (hVal f) ++ "p"
    height := f.height
    width := f.width
    ext := f.ext
    has_audio := f.acodec ≠ "none" }

def bAudEntry (f : RawFormat) : BFormatEntry :=
  { format_id := f.format_id
    type := .audio
    quality := Nat.repr (bVal f) ++ " kbps"
    bitrate := some (bVal f)
    ext := f.ext }

/-- The synthetic "Best Quality" descriptor (only in the legacy backend). -/
def bestQualityEntry : BFormatEntry :=
  { format_id := "bestvideo[ext=mp4]+bestaudio[ext=m4a]/best"
    type := .video
    quality := "Best Quality"
    height := some 9999
    ext := "mp4"
    has_audio := true }

def bTierEntry (res : Nat) : BFormatEntry :=
  { format_id := tierSelector res
    type := .video
    quality := Nat.repr res ++ "p"
    height := some res
    ext := "mp4"
    has_audio := true }

structure BPassState where
  fmts : List BFormatEntry
  seen : List QKey

/-- The per-stream loop of the backend resolver: a video descriptor for any
stream with a video codec and a truthy height, an audio descriptor for
audio-only streams, both deduplicated through `seen_qualities`. -/
def bStep (s : BPassState) (f : RawFormat) : BPassState :=
  if isVidStream f then
    if QKey.videoQ (hVal f) ∈ s.seen then s
    else { fmts := s.fmts ++ [bVaEntry f], seen := s.seen ++ [QKey.videoQ (hVal f)] }
  else if isAudioOnly f then
    if QKey.audioQ (bVal f) ∈ s.seen then s
    else { fmts := s.fmts ++ [bAudEntry f], seen := s.seen ++ [QKey.audioQ (bVal f)] }
  else s

def bPass1 : List RawFormat → BPassState → BPassState
  | [], s => s
  | f :: l, s => bPass1 l (bStep s f)

def bBestAudioEntry : BFormatEntry :=
  { format_id := "bestaudio/best"
    type := .audio
    quality := "Best Audio (MP3)"
    bitrate := some 9999
    ext := "mp3" }

/-- The format list returned by the legacy backend `get_video_info`. -/
def bResolveFormats (info : ExtractorInfo) : List BFormatEntry :=
  let s := bPass1 info.formats ⟨[], []⟩
  -- formats.insert(0, best-quality)
  let fmts1 := bestQualityEntry :: s.fmts
  -- unconditional per-resolution composites: `combined_{res}` is never seen
  let fmts2 := fmts1 ++
    (tiers.filter (fun r => QKey.combinedQ r ∉ s.seen)).map bTierEntry
  let video_formats := sortDesc (fun g => g.height.getD 0)
    (fmts2.filter (fun g => g.type == FKind.video))
  let audio_formats := sortDesc (fun g => g.bitrate.getD 0)
    (fmts2.filter (fun g => g.type == FKind.audio))
  video_formats ++ bBestAudioEntry :: audio_formats

/-! ## Store lemmas -/

theorem lookup_storeUpdate (s : Store) (jobId : String) (f : Job → Job) :
    (storeUpdate s jobId f).lookup jobId = (s.lookup jobId).map f := by
  induction s with
  | nil => rfl
  | cons p l ih =>
    obtain ⟨k, v⟩ := p
    simp only [storeUpdate, List.map_cons] at *
    by_cases hk : k = jobId
    · subst hk
      rw [if_pos rfl]
      simp [List.lookup]
    · rw [if_neg (by exact fun h => hk h)]
      have hk' : (jobId == k) = false := beq_eq_false_iff_ne.mpr (Ne.symm hk)
      simp only [List.lookup, hk']
      exact ih

theorem lookup_hookStore (s : Store) (jobId : String) (d : ProgressEvent) :
    (hookStore s jobId d).lookup jobId = (s.lookup jobId).map (fun j => progressHook j d) := by
  unfold hookStore
  by_cases h : (s.lookup jobId).isSome
  · simp only [h, if_true, lookup_storeUpdate]
  · simp only [h, if_false]
    rw [Option.not_isSome_iff_eq_none] at h
    simp [h]

theorem lookup_runHooks (evts : List ProgressEvent) (jobId : String) :
    ∀ s : Store, (runHooks s jobId evts).lookup jobId =
      (s.lookup jobId).map (fun j => evts.foldl progressHook j) := by
  induction evts with
  | nil => intro s; simp [runHooks]
  | cons d evts ih =>
    intro s
    show (runHooks (hookStore s jobId d) jobId evts).lookup jobId = _
    rw [ih, lookup_hookStore]
    cases s.lookup jobId <;> simp

theorem lookup_startStore (s : Store) (jobId : String) (t : Int) :
    (startStore s jobId t).lookup jobId = some (mkJob jobId t) := by
  simp [startStore, storeInsert, List.lookup]

/-! ## C10: a late hook callback on a deleted job leaves the store unchanged -/

/-- **C10.** If the job id is not in the store when a progress event fires,
`create_progress_hook`'s callback returns immediately and the store is left
completely unchanged (src/app.py lines 84-88). -/
theorem c10_hook_frame (s : Store) (jobId : String) (d : ProgressEvent)
    (h : s.lookup jobId = none) : hookStore s jobId d = s := by
  simp [hookStore, h]

def witnessStore : Store := [("a", mkJob "a" 0)]

def witnessEvent : ProgressEvent :=
  { status := "downloading", downloaded_bytes := 50, total_bytes := some 100 }

theorem c10_hook_frame_witness : hookStore witnessStore "b" witnessEvent = witnessStore :=
  c10_hook_frame witnessStore "b" witnessEvent (by decide)

/-! ## C9: the sanitized display filename -/

/-- **C9, counterexample.** For the title `" _ "` the worker computes the
stem `"_"` (the regex class `\w` keeps underscores, and the result is
`strip()`ped), while the claim's sanitizer — alphanumerics, whitespace and
hyphen only, no strip — yields `"  "`; the two differ. -/
theorem c9_counterexample :
    mkSafeTitle " _ " = "_" ∧ claimSanitize " _ " = "  " ∧ ("_" : String) ≠ "  " := by
  refine ⟨rfl, rfl, by decide⟩

/-- **C9, amended.** The display-name stem equals the title filtered to word
characters (alphanumerics *and underscore*), whitespace and hyphen, truncated
to 100 characters, *stripped of surrounding whitespace*, with the fixed
fallback `"video"` when the result is empty; it never exceeds 100
characters. -/
theorem length_dropWhile_le (p : Char → Bool) (l : List Char) :
    (l.dropWhile p).length ≤ l.length := by
  induction l with
  | nil => simp
  | cons a l ih =>
    rw [List.dropWhile_cons]
    split
    · exact Nat.le_trans ih (Nat.le_succ _)
    · exact Nat.le_refl _

theorem stripStr_length_le (s : String) : (stripStr s).length ≤ s.length := by
  show (((s.toList.dropWhile Char.isWhitespace).reverse.dropWhile
      Char.isWhitespace).reverse).length ≤ s.toList.length
  calc (((s.toList.dropWhile Char.isWhitespace).reverse.dropWhile
          Char.isWhitespace).reverse).length
      = ((s.toList.dropWhile Char.isWhitespace).reverse.dropWhile
          Char.isWhitespace).length := List.length_reverse _
    _ ≤ (s.toList.dropWhile Char.isWhitespace).reverse.length :=
        length_dropWhile_le _ _
    _ = (s.toList.dropWhile Char.isWhitespace).length := List.length_reverse _
    _ ≤ s.toList.length := length_dropWhile_le _ _

theorem c9_amended (title : String) :
    mkSafeTitle title = amendedSanitize title ∧ (mkSafeTitle title).length ≤ 100 := by
  have hpred : keptChar = amendedKeep := by
    funext c
    simp [keptChar, pyIsWord, amendedKeep, Bool.or_assoc]
  constructor
  · unfold mkSafeTitle amendedSanitize sanitizeTitle
    rw [hpred]
  · unfold mkSafeTitle
    by_cases h : sanitizeTitle title = ""
    · rw [if_pos h]
      decide
    · rw [if_neg h]
      calc (sanitizeTitle title).length
          ≤ (⟨(title.toList.filter keptChar).take 100⟩ : String).length :=
            stripStr_length_le _
        _ = ((title.toList.filter keptChar).take 100).length := rfl
        _ ≤ 100 := List.length_take_le 100 _

/-! ## C1: monotonicity of `progress_percent` -/

def dlEvent100 : ProgressEvent :=
  { status := "downloading", downloaded_bytes := 100, total_bytes := some 100 }

def finishedEvent : ProgressEvent := { status := "finished" }

def errorEvent : ProgressEvent := { status := "error", errorMsg := some "boom" }

/-- **C1, counterexample.** After a downloading event with
`downloaded = total = 100` the stored progress is 99 and the phase is the
non-terminal `downloading`; the following `finished` event writes 95 — a
strictly smaller progress value while the job is still in flight, refuting
monotonicity. -/
theorem c1_counterexample :
    (progressHook (mkJob "j" 0) dlEvent100).phase = Phase.downloading ∧
    (progressHook (mkJob "j" 0) dlEvent100).progress = 99 ∧
    (progressHook (progressHook (mkJob "j" 0) dlEvent100) finishedEvent).progress = 95 ∧
    (progressHook (progressHook (mkJob "j" 0) dlEvent100) finishedEvent).progress <
      (progressHook (mkJob "j" 0) dlEvent100).progress := by
  decide

/-- The progress written by a `downloading` event. -/
theorem progressHook_progress_downloading (j : Job) (d : ProgressEvent)
    (h : d.status = "downloading") :
    (progressHook j d).progress =
      if 0 < effTotal d then min (d.downloaded_bytes * 100 / effTotal d) 99
      else j.progress := by
  unfold progressHook
  rw [if_pos h]
  by_cases hvd : j.videoDone
  · simp only [hvd, not_true, if_neg, if_false]
    split <;> simp_all
  · simp only [hvd, not_false_iff, if_true]
    split <;> split <;> simp_all

/-- **C1, amended.** Across `downloading` events of one sub-stream — same
positive effective total, non-decreasing downloaded byte counts — the stored
progress is non-decreasing.  (It is *not* monotone across the whole
in-flight life of a job: the `finished` event writes 95 after the
downloading cap of 99 may already have been reached, and a second
sub-stream's events restart from its own byte counts; see the
counterexample.) -/
theorem c1_amended (j : Job) (d1 d2 : ProgressEvent)
    (h1 : d1.status = "downloading") (h2 : d2.status = "downloading")
    (ht : effTotal d1 = effTotal d2) (hpos : 0 < effTotal d1)
    (hd : d1.downloaded_bytes ≤ d2.downloaded_bytes) :
    (progressHook j d1).progress ≤ (progressHook (progressHook j d1) d2).progress := by
  rw [progressHook_progress_downloading _ _ h1,
    progressHook_progress_downloading _ _ h2, ← ht]
  rw [if_pos hpos, if_pos hpos]
  exact min_le_min (Nat.div_le_div_right (Nat.mul_le_mul_right _ hd)) le_rfl

def dlEvent10 : ProgressEvent :=
  { status := "downloading", downloaded_bytes := 10, total_bytes := some 100 }

def dlEvent20 : ProgressEvent :=
  { status := "downloading", downloaded_bytes := 20, total_bytes := some 100 }

theorem c1_amended_witness :
    (progressHook (mkJob "j" 0) dlEvent10).progress ≤
      (progressHook (progressHook (mkJob "j" 0) dlEvent10) dlEvent20).progress :=
  c1_amended (mkJob "j" 0) dlEvent10 dlEvent20 rfl rfl rfl (by decide) (by decide)

/-! ## Worker lemmas -/

/-- The job record as mutated by the worker's initial transitions and the
hook events, i.e. just before the terminal transition. -/
def preReady (format_id : String) (env : WorkerEnv) (j0 : Job) : Job :=
  env.hookEvents.foldl progressHook (dlUpd (markAudioUpd (audioFlag format_id) (startingUpd j0)))

theorem workerPre_lookup (s : Store) (jobId format_id : String) (env : WorkerEnv)
    (j0 : Job) (hs : s.lookup jobId = some j0) :
    (workerPre s jobId format_id env).lookup jobId = some (preReady format_id env j0) := by
  unfold workerPre preReady
  rw [lookup_runHooks, lookup_storeUpdate, lookup_storeUpdate, lookup_storeUpdate, hs]
  rfl

theorem workerBody_lookup (s : Store) (jobId format_id : String) (env : WorkerEnv)
    (j0 : Job) (hs : s.lookup jobId = some j0) :
    (∃ e, (workerBody s jobId format_id env).lookup jobId =
        some (errorUpd e (preReady format_id env j0))) ∨
    (∃ fp dn, (workerBody s jobId format_id env).lookup jobId =
        some (readyUpd fp dn env.fileSize (audioFlag format_id) (preReady format_id env j0))) := by
  have hpre := workerPre_lookup s jobId format_id env j0 hs
  unfold workerBody
  split
  next e heq =>
    left
    exact ⟨e, by rw [lookup_storeUpdate, hpre]; rfl⟩
  next info heq =>
    by_cases hex : env.existingFiles.contains (resolvedFilename format_id env)
    · right
      refine ⟨resolvedFilename format_id env, downloadName format_id info.title, ?_⟩
      rw [if_pos hex, lookup_storeUpdate, hpre]
      rfl
    · left
      refine ⟨"Download failed - file not found", ?_⟩
      rw [if_neg hex, lookup_storeUpdate, hpre]
      rfl

/-! ## C2: the worker converts every failure into the error phase -/

/-- **C2.**  For a worker spawned on a job the start endpoint just created
(which is the only way the code spawns it), the run never propagates an
exception — every failure inside the `try` is converted into the job's
`error` phase — and it terminates with the job in a terminal phase
(`ready` or `error`).  The single statement outside the `try`, the initial
`DOWNLOAD_JOBS[job_id]` lookup, cannot raise here because the record is
present. -/
theorem c2_worker_no_escape (s : Store) (jobId format_id : String) (t : Int)
    (env : WorkerEnv) :
    ∃ s', download_worker (startStore s jobId t) jobId format_id env = Except.ok s' ∧
      ∃ j', s'.lookup jobId = some j' ∧
        (j'.phase = Phase.ready ∨ j'.phase = Phase.error) := by
  refine ⟨workerBody (startStore s jobId t) jobId format_id env, ?_, ?_⟩
  · unfold download_worker
    rw [lookup_startStore]
  · rcases workerBody_lookup _ jobId format_id env _ (lookup_startStore s jobId t) with
      ⟨e, h⟩ | ⟨fp, dn, h⟩
    · exact ⟨_, h, Or.inr rfl⟩
    · exact ⟨_, h, Or.inl rfl⟩

/-! ## Progress bounds of the hook -/

theorem progressHook_progress_finished (j : Job) (d : ProgressEvent)
    (hs : d.status = "finished") : (progressHook j d).progress = 95 := by
  have hnd : ¬ d.status = "downloading" := by rw [hs]; decide
  unfold progressHook
  rw [if_neg hnd, if_pos hs]

theorem progressHook_progress_other (j : Job) (d : ProgressEvent)
    (h1 : d.status ≠ "downloading") (h2 : d.status ≠ "finished") :
    (progressHook j d).progress = j.progress := by
  unfold progressHook
  rw [if_neg h1, if_neg h2]
  split <;> rfl

/-- A hook update either keeps the stored progress or writes a value of at
most 99; in particular the aggregator never writes 100. -/
theorem progressHook_progress_bound (j : Job) (d : ProgressEvent) :
    (progressHook j d).progress = j.progress ∨ (progressHook j d).progress ≤ 99 := by
  by_cases h1 : d.status = "downloading"
  · rw [progressHook_progress_downloading j d h1]
    split
    · exact Or.inr (Nat.min_le_right _ _)
    · exact Or.inl rfl
  · by_cases h2 : d.status = "finished"
    · rw [progressHook_progress_finished j d h2]
      exact Or.inr (by omega)
    · exact Or.inl (progressHook_progress_other j d h1 h2)

theorem progressHook_progress_le (j : Job) (d : ProgressEvent)
    (h : j.progress ≤ 99) : (progressHook j d).progress ≤ 99 := by
  rcases progressHook_progress_bound j d with heq | hle
  · rw [heq]; exact h
  · exact hle

theorem foldl_progressHook_le (evts : List ProgressEvent) :
    ∀ j : Job, j.progress ≤ 99 → (evts.foldl progressHook j).progress ≤ 99 := by
  induction evts with
  | nil => intro j h; exact h
  | cons d evts ih =>
    intro j h
    exact ih (progressHook j d) (progressHook_progress_le j d h)

/-! ## C6: progress reaches 100 only at the worker's `ready` transition -/

/-- **C6.**  (i) The aggregator keeps the progress below 100: starting from a
value ≤ 99 the hook never exceeds 99, and a hook update yielding 100 is only
possible when 100 was already stored.  (ii) A `downloading` event with a
positive effective total writes exactly `min(int(downloaded/total*100), 99)`
— capped at 99 — and (iii) a `finished` event writes exactly 95.  (iv) In a
worker run on a freshly created job, the final record has progress 100 iff
its phase is `ready`, i.e. 100 is reached only by the worker's `ready`
transition. -/
theorem c6_progress_cap :
    (∀ (j : Job) (d : ProgressEvent), j.progress ≤ 99 → (progressHook j d).progress ≤ 99) ∧
    (∀ (j : Job) (d : ProgressEvent), (progressHook j d).progress = 100 → j.progress = 100) ∧
    (∀ (j : Job) (d : ProgressEvent), d.status = "downloading" → 0 < effTotal d →
      (progressHook j d).progress = min (d.downloaded_bytes * 100 / effTotal d) 99) ∧
    (∀ (j : Job) (d : ProgressEvent), d.status = "finished" →
      (progressHook j d).progress = 95) ∧
    (∀ (s : Store) (jobId format_id : String) (t : Int) (env : WorkerEnv)
      (s' : Store) (j' : Job),
      download_worker (startStore s jobId t) jobId format_id env = Except.ok s' →
      s'.lookup jobId = some j' →
      (j'.progress = 100 ↔ j'.phase = Phase.ready)) := by
  refine ⟨progressHook_progress_le, ?_, ?_, progressHook_progress_finished, ?_⟩
  · intro j d h
    rcases progressHook_progress_bound j d with heq | hle
    · rw [← heq]; exact h
    · omega
  · intro j d hs hpos
    rw [progressHook_progress_downloading j d hs, if_pos hpos]
  · intro s jobId format_id t env s' j' hrun hlook
    unfold download_worker at hrun
    rw [lookup_startStore] at hrun
    have hs' : s' = workerBody (startStore s jobId t) jobId format_id env :=
      (Except.ok.inj hrun).symm
    subst hs'
    have hle : (preReady format_id env (mkJob jobId t)).progress ≤ 99 := by
      unfold preReady
      have h0 : (dlUpd (markAudioUpd (audioFlag format_id) (startingUpd (mkJob jobId t)))).progress
          = 0 := rfl
      exact foldl_progressHook_le _ _ (by omega)
    rcases workerBody_lookup _ jobId format_id env _ (lookup_startStore s jobId t) with
      ⟨e, h⟩ | ⟨fp, dn, h⟩
    · rw [hlook] at h
      obtain rfl := Option.some.inj h
      constructor
      · intro hp
        have hp' : (preReady format_id env (mkJob jobId t)).progress = 100 := hp
        omega
      · intro hp
        have hpe : Phase.error = Phase.ready := hp
        exact absurd hpe (by decide)
    · rw [hlook] at h
      obtain rfl := Option.some.inj h
      exact ⟨fun _ => rfl, fun _ => rfl⟩

def jobAt100 : Job := { mkJob "j" 0 with progress := 100 }

def idleEvent : ProgressEvent := { status := "idle" }

def okEnv : WorkerEnv := { extractResult := Except.ok {} }

theorem c6_progress_cap_witness :
    (progressHook (mkJob "j" 0) dlEvent10).progress ≤ 99 ∧
    jobAt100.progress = 100 ∧
    (progressHook (mkJob "j" 0) dlEvent100).progress =
      min (100 * 100 / effTotal dlEvent100) 99 ∧
    (progressHook (mkJob "j" 0) finishedEvent).progress = 95 ∧
    ((workerBody (startStore [] "j" 0) "j" "best" okEnv).lookup "j" =
        some (errorUpd "Download failed - file not found" (preReady "best" okEnv (mkJob "j" 0))) →
      ((errorUpd "Download failed - file not found" (preReady "best" okEnv (mkJob "j" 0))).progress = 100 ↔
        (errorUpd "Download failed - file not found" (preReady "best" okEnv (mkJob "j" 0))).phase = Phase.ready)) :=
  ⟨c6_progress_cap.1 _ dlEvent10 (by decide),
   c6_progress_cap.2.1 jobAt100 idleEvent (by decide),
   c6_progress_cap.2.2.1 _ dlEvent100 rfl (by decide),
   c6_progress_cap.2.2.2.1 _ finishedEvent rfl,
   fun h => c6_progress_cap.2.2.2.2 [] "j" "best" 0 okEnv _ _ rfl h⟩

/-! ## C3: the error / artifact field invariant -/

/-- The claimed record invariant: `error` is non-null iff the phase is
`error`, and the artifact path/name are non-null iff the phase is `ready`.
(`filesize` is initialized to `0`, not `None`, by `start_download`, so the
claim's "filesize non-null iff ready" can only be read as this
path/name-based invariant; see the amended claim.) -/
def JobInv (j : Job) : Prop :=
  (j.error ≠ none ↔ j.phase = Phase.error) ∧
  (j.filepath ≠ none ↔ j.phase = Phase.ready) ∧
  (j.filename ≠ none ↔ j.phase = Phase.ready)

instance (j : Job) : Decidable (JobInv j) := by
  unfold JobInv
  infer_instance

/-- Fields of a `downloading` hook update that matter for `JobInv`. -/
theorem progressHook_downloading_fields (j : Job) (d : ProgressEvent)
    (hs : d.status = "downloading") :
    (progressHook j d).phase = Phase.downloading ∧
    (progressHook j d).error = j.error ∧
    (progressHook j d).filepath = j.filepath ∧
    (progressHook j d).filename = j.filename := by
  unfold progressHook
  rw [if_pos hs]
  by_cases hvd : j.videoDone
  · simp only [hvd, not_true, if_neg, if_false]
    refine ⟨?_, ?_, ?_, ?_⟩ <;> (split <;> simp_all)
  · simp only [hvd, not_false_iff, if_true]
    refine ⟨?_, ?_, ?_, ?_⟩ <;> ((split <;> split <;> (try split)) <;> simp_all)

/-- Fields of a `finished` hook update that matter for `JobInv`. -/
theorem progressHook_finished_fields (j : Job) (d : ProgressEvent)
    (hs : d.status = "finished") :
    (progressHook j d).phase = Phase.processing ∧
    (progressHook j d).error = j.error ∧
    (progressHook j d).filepath = j.filepath ∧
    (progressHook j d).filename = j.filename := by
  have hnd : ¬ d.status = "downloading" := by rw [hs]; decide
  unfold progressHook
  rw [if_neg hnd, if_pos hs]
  exact ⟨rfl, rfl, rfl, rfl⟩

/-- Fields of an `error` hook update that matter for `JobInv`. -/
theorem progressHook_error_fields (j : Job) (d : ProgressEvent)
    (hs : d.status = "error") :
    (progressHook j d).phase = Phase.error ∧
    (progressHook j d).error = some (d.errorMsg.getD "Download failed") ∧
    (progressHook j d).filepath = j.filepath ∧
    (progressHook j d).filename = j.filename := by
  have hnd : ¬ d.status = "downloading" := by rw [hs]; decide
  have hnf : ¬ d.status = "finished" := by rw [hs]; decide
  unfold progressHook
  rw [if_neg hnd, if_neg hnf, if_pos hs]
  exact ⟨rfl, rfl, rfl, rfl⟩

/-- **C3, counterexample.**  Starting from a fresh job, an `error` hook
event produces a record satisfying the invariant (`error` set, phase
`error`); a subsequent `downloading` hook event — which the aggregator
accepts at any time — moves the phase back to `downloading` without clearing
`error`, so the invariant is *not* preserved by every progress-hook
update. -/
theorem c3_counterexample :
    JobInv (progressHook (mkJob "j" 0) errorEvent) ∧
    ¬ JobInv (progressHook (progressHook (mkJob "j" 0) errorEvent) dlEvent10) := by
  decide

/-- **C3, amended.**  The invariant holds at creation and is preserved by
every worker transition and every hook update *applied to a record whose
`error` field is still null and whose phase is not yet terminal* — which is
every update of an undisturbed run.  (After an `error` hook event, later
`downloading`/`finished` events and the `ready` transition do not clear
`error`, which is the uncovered case of the counterexample; and `filesize`
is `0`-initialized rather than null.) -/
theorem c3_amended :
    (∀ (jobId : String) (t : Int), JobInv (mkJob jobId t)) ∧
    (∀ (j : Job) (d : ProgressEvent), JobInv j → j.error = none →
      j.phase ≠ Phase.ready → JobInv (progressHook j d)) ∧
    (∀ j : Job, JobInv j → j.error = none → j.phase ≠ Phase.ready →
      JobInv (startingUpd j) ∧ (∀ b, JobInv (markAudioUpd b j)) ∧ JobInv (dlUpd j)) ∧
    (∀ (j : Job) (e : String), JobInv j → j.phase ≠ Phase.ready → JobInv (errorUpd e j)) ∧
    (∀ (j : Job) (fp dn : String) (sz : Nat) (b : Bool), JobInv j → j.error = none →
      JobInv (readyUpd fp dn sz b j)) := by
  refine ⟨?_, ?_, ?_, ?_, ?_⟩
  · intro jobId t
    simp [JobInv, mkJob]
  · intro j d hinv herr hph
    obtain ⟨h1, h2, h3⟩ := hinv
    have hfp : j.filepath = none := by
      by_contra hc
      exact hph (h2.mp hc)
    have hfn : j.filename = none := by
      by_contra hc
      exact hph (h3.mp hc)
    by_cases hd : d.status = "downloading"
    · obtain ⟨e1, e2, e3, e4⟩ := progressHook_downloading_fields j d hd
      refine ⟨?_, ?_, ?_⟩ <;> rw [e1] <;> simp [e2, e3, e4, herr, hfp, hfn]
    · by_cases hf : d.status = "finished"
      · obtain ⟨e1, e2, e3, e4⟩ := progressHook_finished_fields j d hf
        refine ⟨?_, ?_, ?_⟩ <;> rw [e1] <;> simp [e2, e3, e4, herr, hfp, hfn]
      · by_cases he : d.status = "error"
        · obtain ⟨e1, e2, e3, e4⟩ := progressHook_error_fields j d he
          refine ⟨?_, ?_, ?_⟩ <;> rw [e1] <;> simp [e2, e3, e4, hfp, hfn]
        · have : progressHook j d = j := by
            unfold progressHook
            rw [if_neg hd, if_neg hf, if_neg he]
          rw [this]
          exact ⟨h1, h2, h3⟩
  · intro j hinv herr hph
    obtain ⟨h1, h2, h3⟩ := hinv
    have hfp : j.filepath = none := by
      by_contra hc
      exact hph (h2.mp hc)
    have hfn : j.filename = none := by
      by_contra hc
      exact hph (h3.mp hc)
    have hpe : ¬ j.phase = Phase.error := fun hc => (h1.mpr hc) herr
    refine ⟨?_, fun b => ?_, ?_⟩ <;>
      simp [JobInv, startingUpd, markAudioUpd, dlUpd, herr, hfp, hfn, hpe, hph]
  · intro j e hinv hph
    obtain ⟨h1, h2, h3⟩ := hinv
    have hfp : j.filepath = none := by
      by_contra hc
      exact hph (h2.mp hc)
    have hfn : j.filename = none := by
      by_contra hc
      exact hph (h3.mp hc)
    simp [JobInv, errorUpd, hfp, hfn]
  · intro j fp dn sz b hinv herr
    simp [JobInv, readyUpd, herr]

theorem c3_amended_witness :
    JobInv (mkJob "j" 0) ∧
    JobInv (progressHook (mkJob "j" 0) dlEvent100) ∧
    JobInv (startingUpd (mkJob "j" 0)) ∧
    JobInv (errorUpd "boom" (mkJob "j" 0)) ∧
    JobInv (readyUpd "f.mp4" "n.mp4" 3 false (mkJob "j" 0)) :=
  ⟨c3_amended.1 "j" 0,
   c3_amended.2.1 (mkJob "j" 0) dlEvent100 (by decide) rfl (by decide),
   (c3_amended.2.2.1 (mkJob "j" 0) (by decide) rfl (by decide)).1,
   c3_amended.2.2.2.1 (mkJob "j" 0) "boom" (by decide) (by decide),
   c3_amended.2.2.2.2 (mkJob "j" 0) "f.mp4" "n.mp4" 3 false (by decide) rfl⟩

/-! ## C8: the sliding-window rate limiter -/

theorem length_filter_lt (p : Int → Bool) (l : List Int) (x : Int)
    (hx : x ∈ l) (hpx : ¬ p x) : (l.filter p).length < l.length := by
  induction l with
  | nil => cases hx
  | cons a l ih =>
    rw [List.filter_cons]
    rcases List.mem_cons.mp hx with rfl | hmem
    · rw [if_neg (by simpa using hpx)]
      exact Nat.lt_succ_of_le (List.length_filter_le p l)
    · split
      · simpa using Nat.succ_lt_succ (ih hmem)
      · exact Nat.lt_succ_of_lt (ih hmem)

theorem runLimiter_append (ts : List Int) (t : Int) :
    runLimiter (ts ++ [t]) =
      ((runLimiter ts).1 ++ [(check_rate_limit t (runLimiter ts).2).1],
        (check_rate_limit t (runLimiter ts).2).2) := by
  unfold runLimiter
  rw [List.foldl_append]
  simp only [List.foldl_cons, List.foldl_nil]

/-- Calls that all fall inside one 60-second window are all admitted (up to
the quota) and all recorded. -/
theorem runLimiter_window (ts : List Int) (hlen : ts.length ≤ RATE_LIMIT)
    (hwin : ∀ x ∈ ts, ∀ y ∈ ts, x - y < 60) :
    runLimiter ts = (List.replicate ts.length true, ts) := by
  induction ts using List.reverseRecOn with
  | nil => rfl
  | append_singleton l t ih =>
    have hl : l.length + 1 ≤ RATE_LIMIT := by
      simpa using hlen
    have hwin' : ∀ x ∈ l, ∀ y ∈ l, x - y < 60 := fun x hx y hy =>
      hwin x (List.mem_append_left _ hx) y (List.mem_append_left _ hy)
    rw [runLimiter_append, ih (by omega) hwin']
    have hfil : l.filter (fun x => decide (t - x < 60)) = l := by
      rw [List.filter_eq_self]
      intro a ha
      simpa using hwin t (by simp) a (List.mem_append_left _ ha)
    have hnotfull : ¬ RATE_LIMIT ≤ l.length := by omega
    simp only [check_rate_limit, hfil, if_neg hnotfull]
    rw [List.length_append, List.length_singleton, List.replicate_succ']

/-- **C8.**  (i) Per call: after pruning entries at least 60 seconds old, the
call denies exactly when the pruned count has reached the quota of 10, in
which case nothing is recorded; otherwise the current timestamp is appended.
(ii) Scenario: 10 admitted calls inside one 60-second window fill the quota,
an 11th call still inside the window is denied, and a later call whose
distance to some recorded timestamp is at least 60 seconds is admitted
again. -/
theorem c8_rate_limiter :
    (∀ (now : Int) (log : List Int),
      ((check_rate_limit now log).1 = false ↔
        RATE_LIMIT ≤ (log.filter (fun t => now - t < 60)).length) ∧
      ((check_rate_limit now log).1 = false →
        (check_rate_limit now log).2 = log.filter (fun t => now - t < 60)) ∧
      ((check_rate_limit now log).1 = true →
        (check_rate_limit now log).2 = log.filter (fun t => now - t < 60) ++ [now])) ∧
    (∀ (ts : List Int) (t11 t12 : Int),
      ts.length = RATE_LIMIT →
      (∀ x ∈ ts, ∀ y ∈ ts, x - y < 60) →
      (∀ x ∈ ts, t11 - x < 60) →
      (∃ x ∈ ts, 60 ≤ t12 - x) →
      (runLimiter ts).1 = List.replicate RATE_LIMIT true ∧
      (check_rate_limit t11 (runLimiter ts).2).1 = false ∧
      (check_rate_limit t12 (check_rate_limit t11 (runLimiter ts).2).2).1 = true) := by
  constructor
  · intro now log
    refine ⟨?_, ?_, ?_⟩ <;> (simp only [check_rate_limit]; split)
    · next h => simp [h]
    · next h => simp [h]
    · intro _; rfl
    · next h => intro hc; simp at hc
    · next h => intro hc; simp at hc
    · intro _; rfl
  · intro ts t11 t12 hlen hwin h11 hslide
    obtain ⟨x, hx, h12⟩ := hslide
    have hrun := runLimiter_window ts (le_of_eq hlen) hwin
    rw [hrun]
    have hfil11 : ts.filter (fun y => decide (t11 - y < 60)) = ts :=
      List.filter_eq_self.mpr (fun a ha => by simpa using h11 a ha)
    have hden : (check_rate_limit t11 ts).1 = false ∧ (check_rate_limit t11 ts).2 = ts := by
      simp only [check_rate_limit, hfil11]
      rw [if_pos (le_of_eq hlen.symm)]
      exact ⟨rfl, rfl⟩
    refine ⟨by rw [hlen], hden.1, ?_⟩
    rw [hden.2]
    have hlt : (ts.filter (fun y => decide (t12 - y < 60))).length < ts.length :=
      length_filter_lt _ ts x hx (by simpa using h12)
    simp only [check_rate_limit]
    rw [if_neg (by omega)]

def windowTimes : List Int := [0, 0, 0, 0, 0, 0, 0, 0, 0, 0]

theorem c8_rate_limiter_witness :
    ((check_rate_limit 0 ([] : List Int)).1 = false ↔
      RATE_LIMIT ≤ (([] : List Int).filter (fun t => (0 : Int) - t < 60)).length) ∧
    (runLimiter windowTimes).1 = List.replicate RATE_LIMIT true ∧
    (check_rate_limit 0 (runLimiter windowTimes).2).1 = false ∧
    (check_rate_limit 60 (check_rate_limit 0 (runLimiter windowTimes).2).2).1 = true :=
  ⟨(c8_rate_limiter.1 0 []).1,
   (c8_rate_limiter.2 windowTimes 0 60 (by decide) (by decide) (by decide) (by decide)).1,
   (c8_rate_limiter.2 windowTimes 0 60 (by decide) (by decide) (by decide) (by decide)).2.1,
   (c8_rate_limiter.2 windowTimes 0 60 (by decide) (by decide) (by decide) (by decide)).2.2⟩

/-! ## Sorting lemmas -/

theorem perm_insertDesc {α : Type} (key : α → Nat) (x : α) (l : List α) :
    List.Perm (insertDesc key x l) (x :: l) := by
  induction l with
  | nil => exact List.Perm.refl _
  | cons a l ih =>
    unfold insertDesc
    split
    · exact List.Perm.refl _
    · exact (ih.cons a).trans (List.Perm.swap x a l)

theorem perm_sortDesc {α : Type} (key : α → Nat) (l : List α) :
    List.Perm (sortDesc key l) l := by
  induction l with
  | nil => exact List.Perm.refl _
  | cons a l ih =>
    exact (perm_insertDesc key a (sortDesc key l)).trans (ih.cons a)

theorem mem_sortDesc {α : Type} (key : α → Nat) (l : List α) (x : α) :
    x ∈ sortDesc key l ↔ x ∈ l :=
  (perm_sortDesc key l).mem_iff

theorem sorted_insertDesc {α : Type} (key : α → Nat) (x : α) (l : List α)
    (h : List.Pairwise (fun a b => key b ≤ key a) l) :
    List.Pairwise (fun a b => key b ≤ key a) (insertDesc key x l) := by
  induction l with
  | nil => simp [insertDesc]
  | cons a l ih =>
    rw [List.pairwise_cons] at h
    unfold insertDesc
    split
    next hle =>
      rw [List.pairwise_cons]
      refine ⟨?_, List.pairwise_cons.mpr h⟩
      intro y hy
      rcases List.mem_cons.mp hy with rfl | hy'
      · exact hle
      · exact le_trans (h.1 y hy') hle
    next hgt =>
      rw [List.pairwise_cons]
      refine ⟨?_, ih h.2⟩
      intro y hy
      rcases List.mem_cons.mp ((perm_insertDesc key x l).mem_iff.mp hy) with rfl | h'
      · exact le_of_lt (Nat.lt_of_not_le hgt)
      · exact h.1 y h'

theorem sorted_sortDesc {α : Type} (key : α → Nat) (l : List α) :
    List.Pairwise (fun a b => key b ≤ key a) (sortDesc key l) := by
  induction l with
  | nil => simp [sortDesc]
  | cons a l ih => exact sorted_insertDesc key a _ ih

/-- A maximal-key head survives the stable descending sort. -/
theorem sortDesc_cons_max {α : Type} (key : α → Nat) (x : α) (l : List α)
    (h : ∀ y ∈ l, key y ≤ key x) :
    sortDesc key (x :: l) = x :: sortDesc key l := by
  show insertDesc key x (sortDesc key l) = _
  cases hsl : sortDesc key l with
  | nil => rfl
  | cons a tl =>
    unfold insertDesc
    rw [if_pos]
    exact h a ((mem_sortDesc key l a).mp (hsl ▸ List.mem_cons_self a tl))

/-! ## The per-stream loop: availability set -/

theorem mem_insertNat (n : Nat) (l : List Nat) (H : Nat) :
    H ∈ insertNat n l ↔ H ∈ l ∨ H = n := by
  unfold insertNat
  split
  next h => exact ⟨Or.inl, fun hc => hc.elim id (fun he => he ▸ h)⟩
  next h => simp [List.mem_append]

theorem step_avail (dur : Nat) (s : PassState) (f : RawFormat) (H : Nat) :
    H ∈ (step dur s f).avail ↔ H ∈ s.avail ∨ (isVidStream f ∧ hVal f = H) := by
  have havail : (step dur s f).avail =
      if isVidStream f then insertNat (hVal f) s.avail else s.avail := by
    unfold step
    split_ifs <;> rfl
  rw [havail]
  split_ifs with h
  · rw [mem_insertNat]
    constructor
    · rintro (h' | h')
      · exact Or.inl h'
      · exact Or.inr ⟨h, h'.symm⟩
    · rintro (h' | ⟨_, h'⟩)
      · exact Or.inl h'
      · exact Or.inr h'.symm
  · constructor
    · exact Or.inl
    · rintro (h' | ⟨hv, _⟩)
      · exact h'
      · exact absurd hv h

theorem pass1_avail (dur : Nat) (l : List RawFormat) :
    ∀ (s : PassState) (H : Nat),
      H ∈ (pass1 dur l s).avail ↔
        H ∈ s.avail ∨ ∃ f ∈ l, isVidStream f ∧ hVal f = H := by
  induction l with
  | nil => intro s H; simp [pass1]
  | cons g l ih =>
    intro s H
    show H ∈ (pass1 dur l (step dur s g)).avail ↔ _
    rw [ih, step_avail]
    simp only [List.mem_cons]
    constructor
    · rintro ((h | h) | ⟨f, hf, hp⟩)
      · exact Or.inl h
      · exact Or.inr ⟨g, Or.inl rfl, h⟩
      · exact Or.inr ⟨f, Or.inr hf, hp⟩
    · rintro (h | ⟨f, rfl | hf, hp⟩)
      · exact Or.inl (Or.inl h)
      · exact Or.inl (Or.inr hp)
      · exact Or.inr ⟨f, hf, hp⟩

/-! ## The per-stream loop: `seen_qualities` synchronization -/

/-- The five possible outcomes of one iteration of the per-stream loop on
the emitted list and the seen set (the availability set is handled by
`step_avail`). -/
theorem step_cases (dur : Nat) (s : PassState) (f : RawFormat) :
    (isVA f ∧ QKey.videoQ (hVal f) ∈ s.seen ∧
      (step dur s f).fmts = s.fmts ∧ (step dur s f).seen = s.seen) ∨
    (isVA f ∧ QKey.videoQ (hVal f) ∉ s.seen ∧
      (step dur s f).fmts = s.fmts ++ [vaEntry dur f] ∧
      (step dur s f).seen = s.seen ++ [QKey.videoQ (hVal f)]) ∨
    (¬ isVA f ∧ isAudioOnly f ∧ QKey.audioQ (bVal f) ∈ s.seen ∧
      (step dur s f).fmts = s.fmts ∧ (step dur s f).seen = s.seen) ∨
    (¬ isVA f ∧ isAudioOnly f ∧ QKey.audioQ (bVal f) ∉ s.seen ∧
      (step dur s f).fmts = s.fmts ++ [audEntry dur f] ∧
      (step dur s f).seen = s.seen ++ [QKey.audioQ (bVal f)]) ∨
    (¬ isVA f ∧ ¬ isAudioOnly f ∧
      (step dur s f).fmts = s.fmts ∧ (step dur s f).seen = s.seen) := by
  unfold step
  split_ifs <;> simp_all

theorem vHeights_append (a b : List FormatEntry) :
    vHeights (a ++ b) = vHeights a ++ vHeights b := by
  simp [vHeights, List.filter_append]

theorem aKeys_append (a b : List FormatEntry) :
    aKeys (a ++ b) = aKeys a ++ aKeys b := by
  simp [aKeys, List.filter_append]

theorem vHeights_va (dur : Nat) (f : RawFormat) :
    vHeights [vaEntry dur f] = [hVal f] := by
  simp [vHeights, vaEntry]

theorem vHeights_aud (dur : Nat) (f : RawFormat) :
    vHeights [audEntry dur f] = [] := by
  simp [vHeights, audEntry]

theorem aKeys_va (dur : Nat) (f : RawFormat) :
    aKeys [vaEntry dur f] = [] := by
  simp [aKeys, vaEntry]

theorem aKeys_aud (dur : Nat) (f : RawFormat) :
    aKeys [audEntry dur f] = [bVal f] := by
  simp [aKeys, audEntry]

/-- The invariant tying `seen_qualities` to the emitted list: a quality key
is in the set iff a descriptor with that key was emitted, and the emitted
keys are duplicate-free. -/
def SyncInv (s : PassState) : Prop :=
  (∀ h, QKey.videoQ h ∈ s.seen ↔ h ∈ vHeights s.fmts) ∧
  (∀ b, QKey.audioQ b ∈ s.seen ↔ b ∈ aKeys s.fmts) ∧
  (vHeights s.fmts).Nodup ∧
  (aKeys s.fmts).Nodup

theorem syncInv_init : SyncInv ⟨[], [], []⟩ := by
  refine ⟨fun h => ?_, fun b => ?_, ?_, ?_⟩ <;> simp [vHeights, aKeys]

theorem step_sync (dur : Nat) (s : PassState) (f : RawFormat)
    (hs : SyncInv s) : SyncInv (step dur s f) := by
  obtain ⟨hv, ha, hnv, hna⟩ := hs
  rcases step_cases dur s f with
    ⟨_, _, e1, e2⟩ | ⟨_, hns, e1, e2⟩ | ⟨_, _, _, e1, e2⟩ | ⟨_, _, hns, e1, e2⟩ | ⟨_, _, e1, e2⟩
  · exact ⟨fun h => e2 ▸ e1 ▸ hv h, fun b => e2 ▸ e1 ▸ ha b, e1 ▸ hnv, e1 ▸ hna⟩
  · refine ⟨fun h => ?_, fun b => ?_, ?_, ?_⟩
    · rw [e1, e2, vHeights_append, vHeights_va]
      simp only [List.mem_append, List.mem_singleton, QKey.videoQ.injEq]
      rw [hv h]
    · rw [e1, e2, aKeys_append, aKeys_va]
      simp only [List.mem_append, List.mem_singleton]
      rw [ha b]
      simp
    · rw [e1, vHeights_append, vHeights_va]
      simp only [List.nodup_append, List.nodup_singleton, List.disjoint_singleton]
      exact ⟨hnv, trivial, fun hc => hns ((hv _).mpr hc)⟩
    · rw [e1, aKeys_append, aKeys_va, List.append_nil]
      exact hna
  · exact ⟨fun h => e2 ▸ e1 ▸ hv h, fun b => e2 ▸ e1 ▸ ha b, e1 ▸ hnv, e1 ▸ hna⟩
  · refine ⟨fun h => ?_, fun b => ?_, ?_, ?_⟩
    · rw [e1, e2, vHeights_append, vHeights_aud]
      simp only [List.mem_append, List.mem_singleton]
      rw [hv h]
      simp
    · rw [e1, e2, aKeys_append, aKeys_aud]
      simp only [List.mem_append, List.mem_singleton, QKey.audioQ.injEq]
      rw [ha b]
    · rw [e1, vHeights_append, vHeights_aud, List.append_nil]
      exact hnv
    · rw [e1, aKeys_append, aKeys_aud]
      simp only [List.nodup_append, List.nodup_singleton, List.disjoint_singleton]
      exact ⟨hna, trivial, fun hc => hns ((ha _).mpr hc)⟩
  · exact ⟨fun h => e2 ▸ e1 ▸ hv h, fun b => e2 ▸ e1 ▸ ha b, e1 ▸ hnv, e1 ▸ hna⟩

theorem pass1_sync (dur : Nat) (l : List RawFormat) :
    ∀ s : PassState, SyncInv s → SyncInv (pass1 dur l s) := by
  induction l with
  | nil => intro s hs; exact hs
  | cons g l ih =>
    intro s hs
    exact ih (step dur s g) (step_sync dur s g hs)

theorem step_vh (dur : Nat) (s : PassState) (f : RawFormat) (H : Nat)
    (hs : SyncInv s) :
    H ∈ vHeights (step dur s f).fmts ↔
      H ∈ vHeights s.fmts ∨ (isVA f ∧ hVal f = H) := by
  obtain ⟨hv, _, _, _⟩ := hs
  rcases step_cases dur s f with
    ⟨hva, hseen, e1, _⟩ | ⟨hva, _, e1, _⟩ | ⟨hnva, _, _, e1, _⟩ |
    ⟨hnva, _, _, e1, _⟩ | ⟨hnva, _, e1, _⟩
  · rw [e1]
    constructor
    · exact Or.inl
    · rintro (h | ⟨_, rfl⟩)
      · exact h
      · exact (hv _).mp hseen
  · rw [e1, vHeights_append, vHeights_va]
    simp only [List.mem_append, List.mem_singleton]
    constructor
    · rintro (h | h)
      · exact Or.inl h
      · exact Or.inr ⟨hva, h.symm⟩
    · rintro (h | ⟨_, h⟩)
      · exact Or.inl h
      · exact Or.inr h.symm
  · rw [e1]
    exact ⟨Or.inl, fun h => h.elim id (fun hc => absurd hc.1 hnva)⟩
  · rw [e1, vHeights_append, vHeights_aud, List.append_nil]
    exact ⟨Or.inl, fun h => h.elim id (fun hc => absurd hc.1 hnva)⟩
  · rw [e1]
    exact ⟨Or.inl, fun h => h.elim id (fun hc => absurd hc.1 hnva)⟩

theorem pass1_vh (dur : Nat) (l : List RawFormat) :
    ∀ (s : PassState), SyncInv s → ∀ H : Nat,
      H ∈ vHeights (pass1 dur l s).fmts ↔
        H ∈ vHeights s.fmts ∨ ∃ f ∈ l, isVA f ∧ hVal f = H := by
  induction l with
  | nil => intro s _ H; simp [pass1]
  | cons g l ih =>
    intro s hs H
    show H ∈ vHeights (pass1 dur l (step dur s g)).fmts ↔ _
    rw [ih (step dur s g) (step_sync dur s g hs) H, step_vh dur s g H hs]
    simp only [List.mem_cons]
    constructor
    · rintro ((h | h) | ⟨f, hf, hp⟩)
      · exact Or.inl h
      · exact Or.inr ⟨g, Or.inl rfl, h⟩
      · exact Or.inr ⟨f, Or.inr hf, hp⟩
    · rintro (h | ⟨f, rfl | hf, hp⟩)
      · exact Or.inl (Or.inl h)
      · exact Or.inl (Or.inr hp)
      · exact Or.inr ⟨f, hf, hp⟩

theorem step_ak (dur : Nat) (s : PassState) (f : RawFormat) (B : Nat)
    (hs : SyncInv s) :
    B ∈ aKeys (step dur s f).fmts ↔
      B ∈ aKeys s.fmts ∨ (isAudioOnly f ∧ ¬ isVA f ∧ bVal f = B) := by
  obtain ⟨_, ha, _, _⟩ := hs
  rcases step_cases dur s f with
    ⟨hva, _, e1, _⟩ | ⟨hva, _, e1, _⟩ | ⟨hnva, hao, hseen, e1, _⟩ |
    ⟨hnva, hao, _, e1, _⟩ | ⟨hnva, hnao, e1, _⟩
  · rw [e1]
    exact ⟨Or.inl, fun h => h.elim id (fun hc => absurd hva hc.2.1)⟩
  · rw [e1, aKeys_append, aKeys_va, List.append_nil]
    exact ⟨Or.inl, fun h => h.elim id (fun hc => absurd hva hc.2.1)⟩
  · rw [e1]
    constructor
    · exact Or.inl
    · rintro (h | ⟨_, _, rfl⟩)
      · exact h
      · exact (ha _).mp hseen
  · rw [e1, aKeys_append, aKeys_aud]
    simp only [List.mem_append, List.mem_singleton]
    constructor
    · rintro (h | h)
      · exact Or.inl h
      · exact Or.inr ⟨hao, hnva, h.symm⟩
    · rintro (h | ⟨_, _, h⟩)
      · exact Or.inl h
      · exact Or.inr h.symm
  · rw [e1]
    exact ⟨Or.inl, fun h => h.elim id (fun hc => absurd hc.1 hnao)⟩

theorem pass1_ak (dur : Nat) (l : List RawFormat) :
    ∀ (s : PassState), SyncInv s → ∀ B : Nat,
      B ∈ aKeys (pass1 dur l s).fmts ↔
        B ∈ aKeys s.fmts ∨ ∃ f ∈ l, isAudioOnly f ∧ ¬ isVA f ∧ bVal f = B := by
  induction l with
  | nil => intro s _ B; simp [pass1]
  | cons g l ih =>
    intro s hs B
    show B ∈ aKeys (pass1 dur l (step dur s g)).fmts ↔ _
    rw [ih (step dur s g) (step_sync dur s g hs) B, step_ak dur s g B hs]
    simp only [List.mem_cons]
    constructor
    · rintro ((h | h) | ⟨f, hf, hp⟩)
      · exact Or.inl h
      · exact Or.inr ⟨g, Or.inl rfl, h⟩
      · exact Or.inr ⟨f, Or.inr hf, hp⟩
    · rintro (h | ⟨f, rfl | hf, hp⟩)
      · exact Or.inl (Or.inl h)
      · exact Or.inl (Or.inr hp)
      · exact Or.inr ⟨f, hf, hp⟩

/-- Every emitted raw descriptor stems from some input stream. -/
theorem pass1_fmts_sub (dur : Nat) (l : List RawFormat) :
    ∀ (s : PassState) (g : FormatEntry), g ∈ (pass1 dur l s).fmts →
      g ∈ s.fmts ∨ ∃ f ∈ l, g = vaEntry dur f ∨ g = audEntry dur f := by
  induction l with
  | nil => intro s g hg; exact Or.inl hg
  | cons f0 l ih =>
    intro s g hg
    rcases ih (step dur s f0) g hg with hmem | ⟨f, hf, hor⟩
    · have hstep : (step dur s f0).fmts = s.fmts ∨
          (step dur s f0).fmts = s.fmts ++ [vaEntry dur f0] ∨
          (step dur s f0).fmts = s.fmts ++ [audEntry dur f0] := by
        rcases step_cases dur s f0 with
          ⟨_, _, e1, _⟩ | ⟨_, _, e1, _⟩ | ⟨_, _, _, e1, _⟩ | ⟨_, _, _, e1, _⟩ | ⟨_, _, e1, _⟩
        · exact Or.inl e1
        · exact Or.inr (Or.inl e1)
        · exact Or.inl e1
        · exact Or.inr (Or.inr e1)
        · exact Or.inl e1
      rcases hstep with e | e | e
      · exact Or.inl (e ▸ hmem)
      · rw [e, List.mem_append] at hmem
        rcases hmem with h | h
        · exact Or.inl h
        · exact Or.inr ⟨f0, List.mem_cons_self f0 l, Or.inl (List.mem_singleton.mp h)⟩
      · rw [e, List.mem_append] at hmem
        rcases hmem with h | h
        · exact Or.inl h
        · exact Or.inr ⟨f0, List.mem_cons_self f0 l, Or.inr (List.mem_singleton.mp h)⟩
    · exact Or.inr ⟨f, List.mem_cons_of_mem f0 hf, hor⟩

/-! ## C4: the synthetic per-resolution composites -/

theorem tierEntry_ne_va (H dur : Nat) (f : RawFormat) : tierEntry H ≠ vaEntry dur f := by
  simp [tierEntry, vaEntry]

theorem tierEntry_ne_aud (H dur : Nat) (f : RawFormat) : tierEntry H ≠ audEntry dur f := by
  simp [tierEntry, audEntry]

theorem tierEntry_ne_bestAudio (H : Nat) : tierEntry H ≠ bestAudioEntry := by
  simp [tierEntry, bestAudioEntry]

theorem tierEntry_inj {r H : Nat} (h : tierEntry r = tierEntry H) : r = H := by
  have := congrArg (fun g => g.height) h
  simpa [tierEntry] using this

/-- The state of the per-stream loop on the given extractor output. -/
def passOut (info : ExtractorInfo) : PassState :=
  pass1 (info.duration.getD 0) info.formats ⟨[], [], []⟩

/-- The emitted list with the synthetic per-resolution composites appended
(the list that is then split and sorted). -/
def fmts2 (info : ExtractorInfo) : List FormatEntry :=
  (passOut info).fmts ++
    (tiers.filter
      (fun r => r ∉ vHeights (passOut info).fmts && r ∈ (passOut info).avail)).map tierEntry

theorem resolveFormats_eq (info : ExtractorInfo) :
    resolveFormats info =
      sortDesc (fun g => g.height.getD 0)
        ((fmts2 info).filter (fun g => g.type == FKind.video)) ++
      bestAudioEntry ::
        sortDesc (fun g => g.bitrate.getD 0)
          ((fmts2 info).filter (fun g => g.type == FKind.audio)) := rfl

theorem tier_mem_fmts2 (info : ExtractorInfo) (H : Nat) :
    tierEntry H ∈ fmts2 info ↔
      H ∈ tiers ∧ H ∉ vHeights (passOut info).fmts ∧ H ∈ (passOut info).avail := by
  unfold fmts2
  rw [List.mem_append]
  constructor
  · rintro (hmem | hmem)
    · exfalso
      rcases pass1_fmts_sub _ info.formats _ _ hmem with hnil | ⟨f, _, h | h⟩
      · simp [PassState.fmts] at hnil
      · exact tierEntry_ne_va H _ f h
      · exact tierEntry_ne_aud H _ f h
    · rcases List.mem_map.mp hmem with ⟨r, hr, he⟩
      obtain rfl := tierEntry_inj he
      rcases List.mem_filter.mp hr with ⟨hrt, hcond⟩
      simp only [Bool.and_eq_true, decide_eq_true_eq] at hcond
      exact ⟨hrt, hcond.1, hcond.2⟩
  · rintro ⟨h1, h2, h3⟩
    right
    exact List.mem_map.mpr ⟨H, List.mem_filter.mpr ⟨h1, by simp [h2, h3]⟩, rfl⟩

theorem tier_mem_resolve (info : ExtractorInfo) (H : Nat) :
    tierEntry H ∈ resolveFormats info ↔ tierEntry H ∈ fmts2 info := by
  rw [resolveFormats_eq, List.mem_append, List.mem_cons]
  constructor
  · rintro (h | h | h)
    · exact (List.mem_filter.mp ((mem_sortDesc _ _ _).mp h)).1
    · exact absurd h (tierEntry_ne_bestAudio H)
    · have := (List.mem_filter.mp ((mem_sortDesc _ _ _).mp h)).2
      simp [tierEntry] at this
  · intro h
    left
    exact (mem_sortDesc _ _ _).mpr (List.mem_filter.mpr ⟨h, by simp [tierEntry]⟩)

theorem isVidStream_of_videoOnly (f : RawFormat) (h : isVideoOnly f) :
    isVidStream f := by
  simp only [isVideoOnly, isVidStream, Bool.and_eq_true, decide_eq_true_eq] at *
  exact ⟨h.1.1, h.2⟩

theorem videoOnly_of_vidStream (f : RawFormat) (h1 : isVidStream f)
    (h2 : f.acodec = "none") : isVideoOnly f := by
  simp only [isVideoOnly, isVidStream, Bool.and_eq_true, decide_eq_true_eq,
    beq_iff_eq] at *
  exact ⟨⟨h1.1, h2⟩, h1.2⟩

theorem va_of_vidStream (f : RawFormat) (h1 : isVidStream f)
    (h2 : ¬ f.acodec = "none") : isVA f := by
  simp only [isVA, isVidStream, Bool.and_eq_true, decide_eq_true_eq] at *
  exact ⟨⟨h1.1, h2⟩, h1.2⟩

/-- **C4.**  For every extractor output and every height in the canonical
tier list, the resolved format list carries the synthetic per-resolution
composite descriptor at that height iff no video-with-audio stream (hence no
video-with-audio descriptor) exists at that height and some video-only
stream was observed at that height.  (The code's availability set collects
*every* stream with a video codec and a height, but any video-with-audio
stream at the height would also appear among the emitted heights, so the two
conditions coincide.) -/
theorem c4_tier_composite (info : ExtractorInfo) (H : Nat) (hH : H ∈ tiers) :
    tierEntry H ∈ resolveFormats info ↔
      ((¬ ∃ f ∈ info.formats, isVA f ∧ hVal f = H) ∧
        ∃ f ∈ info.formats, isVideoOnly f ∧ hVal f = H) := by
  rw [tier_mem_resolve, tier_mem_fmts2]
  have hvh := pass1_vh (info.duration.getD 0) info.formats _ syncInv_init H
  have hav := pass1_avail (info.duration.getD 0) info.formats ⟨[], [], []⟩ H
  simp only [show vHeights (⟨[], [], []⟩ : PassState).fmts = [] from rfl,
    show (⟨[], [], []⟩ : PassState).avail = [] from rfl,
    List.not_mem_nil, false_or] at hvh hav
  unfold passOut
  constructor
  · rintro ⟨_, hnv, hva⟩
    rw [hvh] at hnv
    rw [hav] at hva
    refine ⟨hnv, ?_⟩
    obtain ⟨f, hf, hvs, hH'⟩ := hva
    by_cases hac : f.acodec = "none"
    · exact ⟨f, hf, videoOnly_of_vidStream f hvs hac, hH'⟩
    · exact absurd ⟨f, hf, va_of_vidStream f hvs hac, hH'⟩ hnv
  · rintro ⟨hnv, f, hf, hvo, hH'⟩
    refine ⟨hH, ?_, ?_⟩
    · rw [hvh]
      exact hnv
    · rw [hav]
      exact ⟨f, hf, isVidStream_of_videoOnly f hvo, hH'⟩

def vOnly720 : RawFormat :=
  { format_id := "247", vcodec := "vp9", acodec := "none", height := some 720 }

def infoVOnly : ExtractorInfo := { formats := [vOnly720] }

theorem c4_tier_composite_witness : tierEntry 720 ∈ resolveFormats infoVOnly :=
  (c4_tier_composite infoVOnly 720 (by decide)).mpr (by decide)

/-! ## C7: dedup keys, ordering and the synthetic Best Audio entry -/

theorem vHeights_tiersMap (l : List Nat) : vHeights (l.map tierEntry) = l := by
  induction l with
  | nil => rfl
  | cons r l ih =>
    simp only [List.map_cons, vHeights, List.filter_cons] at ih ⊢
    simp only [show ((tierEntry r).type == FKind.video) = true from rfl, if_pos]
    rw [List.map_cons]
    simp only [show (tierEntry r).height.getD 0 = r from rfl]
    exact congrArg (r :: ·) ih

theorem aKeys_tiersMap (l : List Nat) : aKeys (l.map tierEntry) = [] := by
  induction l with
  | nil => rfl
  | cons r l ih =>
    simp only [List.map_cons, aKeys, List.filter_cons] at ih ⊢
    rw [if_neg (by simp [tierEntry])]
    exact ih

theorem tiers_nodup : tiers.Nodup := by decide

/-- Every audio entry of the pre-sort list has a bitrate key strictly below
the synthetic sentinel 9999, provided every raw `abr` is. -/
theorem audio_key_lt (info : ExtractorInfo)
    (hbr : ∀ f ∈ info.formats, bVal f < 9999) :
    ∀ y ∈ (fmts2 info).filter (fun g => g.type == FKind.audio),
      y.bitrate.getD 0 < 9999 := by
  intro y hy
  obtain ⟨hy2, hty⟩ := List.mem_filter.mp hy
  unfold fmts2 at hy2
  rw [List.mem_append] at hy2
  rcases hy2 with h | h
  · rcases pass1_fmts_sub _ _ _ _ h with hnil | ⟨f, hf, hva | haud⟩
    · simp at hnil
    · rw [hva] at hty
      simp [vaEntry] at hty
    · rw [haud]
      simpa [audEntry] using hbr f hf
  · rcases List.mem_map.mp h with ⟨r, _, rfl⟩
    simp [tierEntry] at hty

/-- **C7, counterexample.**  With a raw audio stream of bitrate 10000 the
synthetic Best Audio entry (sentinel bitrate 9999) is inserted ahead of it
after sorting, so the audio entries of the resolved list are *not* sorted by
bitrate descending. -/
def audHi : RawFormat :=
  { format_id := "999", vcodec := "none", acodec := "mp4a", abr := some 10000 }

def infoHi : ExtractorInfo := { formats := [audHi] }

theorem c7_counterexample :
    ¬ List.Pairwise (fun a b => b.bitrate.getD 0 ≤ a.bitrate.getD 0)
      ((resolveFormats infoHi).filter (fun g => g.type == FKind.audio)) := by
  decide

/-- **C7, amended.**  Provided every raw audio bitrate is below the
synthetic Best Audio sentinel of 9999 (true of all real audio streams): no
two video entries share a height, no two audio entries share a bitrate, all
video entries precede all audio entries, video entries are sorted by height
descending, audio entries by bitrate descending, and the synthetic Best
Audio descriptor is the first audio entry.  (Without the bound, an audio
stream with `int(abr) ≥ 9999` breaks the sortedness — see the
counterexample — or duplicates the sentinel key.) -/
theorem c7_format_list (info : ExtractorInfo)
    (hbr : ∀ f ∈ info.formats, bVal f < 9999) :
    (resolveFormats info =
      (resolveFormats info).filter (fun g => g.type == FKind.video) ++
        (resolveFormats info).filter (fun g => g.type == FKind.audio)) ∧
    (((resolveFormats info).filter (fun g => g.type == FKind.video)).map
      (fun g => g.height.getD 0)).Nodup ∧
    (((resolveFormats info).filter (fun g => g.type == FKind.audio)).map
      (fun g => g.bitrate.getD 0)).Nodup ∧
    List.Pairwise (fun a b => b.height.getD 0 ≤ a.height.getD 0)
      ((resolveFormats info).filter (fun g => g.type == FKind.video)) ∧
    List.Pairwise (fun a b => b.bitrate.getD 0 ≤ a.bitrate.getD 0)
      ((resolveFormats info).filter (fun g => g.type == FKind.audio)) ∧
    ((resolveFormats info).filter (fun g => g.type == FKind.audio)).head? =
      some bestAudioEntry := by
  have hsync := pass1_sync (info.duration.getD 0) info.formats _ syncInv_init
  -- the sorted halves
  have hVall : ∀ g ∈ sortDesc (fun g => g.height.getD 0)
      ((fmts2 info).filter (fun g => g.type == FKind.video)),
      (g.type == FKind.video) = true := fun g hg =>
    (List.mem_filter.mp ((mem_sortDesc _ _ _).mp hg)).2
  have hAall : ∀ g ∈ sortDesc (fun g => g.bitrate.getD 0)
      ((fmts2 info).filter (fun g => g.type == FKind.audio)),
      (g.type == FKind.audio) = true := fun g hg =>
    (List.mem_filter.mp ((mem_sortDesc _ _ _).mp hg)).2
  -- filtering the final list recovers the halves
  have hnilva : List.filter (fun g => g.type == FKind.video)
      (sortDesc (fun g => g.bitrate.getD 0)
        ((fmts2 info).filter (fun g => g.type == FKind.audio))) = [] := by
    rw [List.filter_eq_nil_iff]
    intro g hg
    have := hAall g hg
    simp_all
  have hnilav : List.filter (fun g => g.type == FKind.audio)
      (sortDesc (fun g => g.height.getD 0)
        ((fmts2 info).filter (fun g => g.type == FKind.video))) = [] := by
    rw [List.filter_eq_nil_iff]
    intro g hg
    have := hVall g hg
    simp_all
  have hfv : (resolveFormats info).filter (fun g => g.type == FKind.video) =
      sortDesc (fun g => g.height.getD 0)
        ((fmts2 info).filter (fun g => g.type == FKind.video)) := by
    rw [resolveFormats_eq, List.filter_append,
      List.filter_cons_of_neg (by decide), List.filter_eq_self.mpr hVall,
      hnilva, List.append_nil]
  have hfa : (resolveFormats info).filter (fun g => g.type == FKind.audio) =
      bestAudioEntry :: sortDesc (fun g => g.bitrate.getD 0)
        ((fmts2 info).filter (fun g => g.type == FKind.audio)) := by
    rw [resolveFormats_eq, List.filter_append,
      List.filter_cons_of_pos (by decide), List.filter_eq_self.mpr hAall,
      hnilav, List.nil_append]
  -- the video keys of the pre-sort list
  have hvh2 : ((fmts2 info).filter (fun g => g.type == FKind.video)).map
      (fun g => g.height.getD 0) = vHeights (fmts2 info) := rfl
  have hvheq : vHeights (fmts2 info) = vHeights (passOut info).fmts ++
      tiers.filter (fun r =>
        r ∉ vHeights (passOut info).fmts && r ∈ (passOut info).avail) := by
    unfold fmts2
    rw [vHeights_append, vHeights_tiersMap]
  have hvnodup : (vHeights (fmts2 info)).Nodup := by
    rw [hvheq, List.nodup_append]
    refine ⟨hsync.2.2.1, tiers_nodup.filter _, ?_⟩
    intro a ha hamem
    have := (List.mem_filter.mp hamem).2
    simp only [Bool.and_eq_true, decide_eq_true_eq] at this
    exact this.1 ha
  -- the audio keys of the pre-sort list
  have hak2 : ((fmts2 info).filter (fun g => g.type == FKind.audio)).map
      (fun g => g.bitrate.getD 0) = aKeys (fmts2 info) := rfl
  have hakeq : aKeys (fmts2 info) = aKeys (passOut info).fmts := by
    unfold fmts2
    rw [aKeys_append, aKeys_tiersMap, List.append_nil]
  have haknodup : (aKeys (fmts2 info)).Nodup := by
    rw [hakeq]
    exact hsync.2.2.2
  refine ⟨?_, ?_, ?_, ?_, ?_, ?_⟩
  · rw [hfv, hfa, resolveFormats_eq]
  · rw [hfv]
    have hperm := (perm_sortDesc (fun g => g.height.getD 0)
      ((fmts2 info).filter (fun g => g.type == FKind.video))).map
      (fun g => g.height.getD 0)
    rw [hperm.nodup_iff, hvh2]
    exact hvnodup
  · rw [hfa, List.map_cons]
    have hperm := (perm_sortDesc (fun g => g.bitrate.getD 0)
      ((fmts2 info).filter (fun g => g.type == FKind.audio))).map
      (fun g => g.bitrate.getD 0)
    rw [List.nodup_cons, hperm.nodup_iff, hak2]
    refine ⟨?_, haknodup⟩
    intro hc
    rcases List.mem_map.mp (hperm.mem_iff.mp hc) with ⟨y, hy, hky⟩
    have hlt := audio_key_lt info hbr y hy
    have hba : bestAudioEntry.bitrate.getD 0 = 9999 := rfl
    omega
  · rw [hfv]
    exact sorted_sortDesc _ _
  · rw [hfa, List.pairwise_cons]
    refine ⟨?_, sorted_sortDesc _ _⟩
    intro y hy
    exact Nat.le_of_lt (audio_key_lt info hbr y ((mem_sortDesc _ _ _).mp hy))
  · rw [hfa]
    rfl

theorem c7_format_list_witness :
    ((resolveFormats infoVOnly).filter (fun g => g.type == FKind.audio)).head? =
      some bestAudioEntry :=
  (c7_format_list infoVOnly (by decide)).2.2.2.2.2

/-! ## C5: the synthetic "Best Quality" descriptor -/

def va360 : RawFormat :=
  { format_id := "18", vcodec := "avc1", acodec := "mp4a", height := some 360 }

def infoVA : ExtractorInfo := { formats := [va360] }

/-- **C5, counterexample.**  The primary resolver (src/app.py) emits no
"Best Quality" descriptor at all: on an output with one muxed 360p stream the
resolved list starts with the raw 360p descriptor and contains no entry
labelled "Best Quality". -/
theorem c5_counterexample :
    ((resolveFormats infoVA).head?.map (fun g => g.quality) = some "360p") ∧
    ∀ g ∈ resolveFormats infoVA, g.quality ≠ "Best Quality" := by
  decide

theorem bStep_fmts (s : BPassState) (f : RawFormat) :
    (bStep s f).fmts = s.fmts ∨
    (bStep s f).fmts = s.fmts ++ [bVaEntry f] ∨
    (bStep s f).fmts = s.fmts ++ [bAudEntry f] := by
  unfold bStep
  split_ifs <;> simp

theorem bPass1_fmts_sub (l : List RawFormat) :
    ∀ (s : BPassState) (g : BFormatEntry), g ∈ (bPass1 l s).fmts →
      g ∈ s.fmts ∨ ∃ f ∈ l, g = bVaEntry f ∨ g = bAudEntry f := by
  induction l with
  | nil => intro s g hg; exact Or.inl hg
  | cons f0 l ih =>
    intro s g hg
    rcases ih (bStep s f0) g hg with hmem | ⟨f, hf, hor⟩
    · rcases bStep_fmts s f0 with e | e | e
      · exact Or.inl (e ▸ hmem)
      · rw [e, List.mem_append] at hmem
        rcases hmem with h | h
        · exact Or.inl h
        · exact Or.inr ⟨f0, List.mem_cons_self f0 l, Or.inl (List.mem_singleton.mp h)⟩
      · rw [e, List.mem_append] at hmem
        rcases hmem with h | h
        · exact Or.inl h
        · exact Or.inr ⟨f0, List.mem_cons_self f0 l, Or.inr (List.mem_singleton.mp h)⟩
    · exact Or.inr ⟨f, List.mem_cons_of_mem f0 hf, hor⟩

def bPassOut (info : ExtractorInfo) : BPassState := bPass1 info.formats ⟨[], []⟩

/-- The backend's pre-sort list: the Best Quality entry inserted at index 0,
then the per-resolution composites (whose `combined_{res}` keys are never in
`seen_qualities`). -/
def bFmts2 (info : ExtractorInfo) : List BFormatEntry :=
  (bestQualityEntry :: (bPassOut info).fmts) ++
    (tiers.filter (fun r => QKey.combinedQ r ∉ (bPassOut info).seen)).map bTierEntry

theorem bResolveFormats_eq (info : ExtractorInfo) :
    bResolveFormats info =
      sortDesc (fun g => g.height.getD 0)
        ((bFmts2 info).filter (fun g => g.type == FKind.video)) ++
      bBestAudioEntry ::
        sortDesc (fun g => g.bitrate.getD 0)
          ((bFmts2 info).filter (fun g => g.type == FKind.audio)) := rfl

/-- **C5, amended.**  Only the legacy backend resolver
(src/backend/app.py) prepends a synthetic "Best Quality" descriptor, and
there it is the first entry of the returned list whenever every
extractor-reported height is at most its sentinel height 9999 (true of all
real streams); the primary resolver returns no Best Quality entry (see the
counterexample). -/
theorem c5_amended (info : ExtractorInfo)
    (hh : ∀ f ∈ info.formats, f.height.getD 0 ≤ 9999) :
    (bResolveFormats info).head? = some bestQualityEntry := by
  have hsplit : (bFmts2 info).filter (fun g => g.type == FKind.video) =
      bestQualityEntry ::
        (((bPassOut info).fmts ++
          (tiers.filter (fun r => QKey.combinedQ r ∉ (bPassOut info).seen)).map
            bTierEntry).filter (fun g => g.type == FKind.video)) := by
    unfold bFmts2
    rw [List.cons_append, List.filter_cons_of_pos (by decide)]
  have hkey : ∀ y ∈ ((bPassOut info).fmts ++
      (tiers.filter (fun r => QKey.combinedQ r ∉ (bPassOut info).seen)).map
        bTierEntry).filter (fun g => g.type == FKind.video),
      y.height.getD 0 ≤ 9999 := by
    intro y hy
    obtain ⟨hy2, hty⟩ := List.mem_filter.mp hy
    rw [List.mem_append] at hy2
    rcases hy2 with h | h
    · rcases bPass1_fmts_sub info.formats _ y h with hnil | ⟨f, hf, hva | haud⟩
      · simp at hnil
      · rw [hva]
        exact hh f hf
      · rw [haud] at hty
        simp [bAudEntry] at hty
    · rcases List.mem_map.mp h with ⟨r, hr, rfl⟩
      have : r ∈ tiers := (List.mem_filter.mp hr).1
      have hr' : r ≤ 2160 := by
        simp only [tiers, List.mem_cons, List.not_mem_nil, or_false] at this
        rcases this with rfl | rfl | rfl | rfl | rfl | rfl <;> omega
      show r ≤ 9999
      omega
  rw [bResolveFormats_eq, hsplit, sortDesc_cons_max _ _ _ hkey, List.cons_append]
  rfl

theorem c5_amended_witness : (bResolveFormats infoVA).head? = some bestQualityEntry :=
  c5_amended infoVA (by decide)

end Ytdl
